import Mathlib

/-!
Verification development for the travel-video summarizer pipeline
(`app/build_summary.py`).  The segment-selection pipeline is embedded
shallowly: time values and scores are rationals, the `while` loop of the
splitter becomes a fueled recursion, the scorer is an abstract field of a
clip record, and the resource discipline of the exporter/orchestrator is
modelled by explicit handle-state passing.
-/

namespace BuildSummary

/-! ## Segment Splitter (`split_in_segments`) -/

/-- One iteration of the `while t < clip.duration` loop of
`split_in_segments`: `t_end = min (t + segment_length) duration`; the window
is kept only when `t_end - t ≥ 1.0`; then `t := t_end`.  The loop is embedded
with a fuel argument large enough for every terminating run. -/
def splitGo (L D : ℚ) : ℕ → ℚ → List (ℚ × ℚ)
  | 0, _ => []
  | fuel + 1, t =>
    if t < D then
      if 1 ≤ min (t + L) D - t then (t, min (t + L) D) :: splitGo L D fuel (min (t + L) D)
      else splitGo L D fuel (min (t + L) D)
    else []

/-- `split_in_segments` from the source: returns the list of
`(t_start, t_end)` windows of a clip of duration `D` in steps of `L`.
Fuel `⌈D / L⌉ + 1` bounds the iteration count of every run of the source
loop that terminates (`L > 0`). -/
def split_in_segments (D L : ℚ) : List (ℚ × ℚ) :=
  splitGo L D (Nat.ceil (D / L) + 1) 0

/-! ## Clips, segments, Best-Segment Selector -/

/-- A loaded, normalized clip as the selector observes it: a duration and the
deterministic scorer `segment_score clip t_start t_end` (the motion+audio
weighted sum), abstracted as a function field. -/
structure Clip where
  duration : ℚ
  score : ℚ → ℚ → ℚ

/-- The `Segment` dataclass of the source; the non-owning clip reference is
represented by `clip_index` into the pipeline's clip list. -/
structure Segment where
  clip_index : ℕ
  t_start : ℚ
  t_end : ℚ
  score : ℚ
deriving DecidableEq

/-- The inner loop of `extract_best_segment_per_clip`: runs through the
windows keeping `(best_seg, best_score)`; the initial `best_score` is the
float `-inf`, embedded as `⊥ : WithBot ℚ`, and the comparison is the strict
`s > best_score` of the source. -/
def bestFold (idx : ℕ) (c : Clip) :
    List (ℚ × ℚ) → Option Segment × WithBot ℚ → Option Segment × WithBot ℚ
  | [], acc => acc
  | (ts, te) :: rest, (bestSeg, bestScore) =>
    if bestScore < (c.score ts te : WithBot ℚ) then
      bestFold idx c rest (some ⟨idx, ts, te, c.score ts te⟩, (c.score ts te : WithBot ℚ))
    else
      bestFold idx c rest (bestSeg, bestScore)

/-- The outer loop of `extract_best_segment_per_clip` over the enumerated
clip list: a clip contributes its best segment when one exists. -/
def extractGo (L : ℚ) : ℕ → List Clip → List Segment
  | _, [] => []
  | idx, c :: rest =>
    (bestFold idx c (split_in_segments c.duration L) (none, ⊥)).1.toList ++
      extractGo L (idx + 1) rest

/-- `extract_best_segment_per_clip` from the source. -/
def extract_best_segment_per_clip (clips : List Clip) (L : ℚ) : List Segment :=
  extractGo L 0 clips

/-! ## Budget Packer (`arrange_best_segments`) -/

/-- A packed sub-clip extract `seg.clip.subclip(t_start, t_end)`, identified
by the clip it views and its window. -/
structure Extract where
  clip_index : ℕ
  t_start : ℚ
  t_end : ℚ
deriving DecidableEq

/-- Duration of one packed extract. -/
def extractDur (e : Extract) : ℚ := e.t_end - e.t_start

/-- Sum of the durations of the packed extracts. -/
def totalDuration (es : List Extract) : ℚ := (es.map extractDur).sum

/-- The packing loop of `arrange_best_segments`, with the running `total`
explicit.  Each branch mirrors the source: skip when `dur <
min_segment_duration`; on overflow append the truncated extract when
`remaining ≥ min_segment_duration` and `break` in both overflow cases;
otherwise append the whole window and continue. -/
def arrangeGo (maxTotal minSeg : ℚ) : List Segment → ℚ → List Extract
  | [], _ => []
  | seg :: rest, total =>
    if seg.t_end - seg.t_start < minSeg then arrangeGo maxTotal minSeg rest total
    else if maxTotal < total + (seg.t_end - seg.t_start) then
      if minSeg ≤ maxTotal - total then
        [⟨seg.clip_index, seg.t_start, seg.t_start + (maxTotal - total)⟩]
      else []
    else
      ⟨seg.clip_index, seg.t_start, seg.t_end⟩ ::
        arrangeGo maxTotal minSeg rest (total + (seg.t_end - seg.t_start))

/-- `arrange_best_segments` from the source (defaults
`max_total_duration = 60.0`, `min_segment_duration = 1.5` are supplied by
callers). -/
def arrange_best_segments (segments : List Segment) (maxTotal minSeg : ℚ) : List Extract :=
  arrangeGo maxTotal minSeg segments 0

/-- The deterministic scored core of the pipeline: selection composed with
packing, as run by `build_travel_summary_smart`. -/
def select_and_pack (clips : List Clip) (L maxTotal minSeg : ℚ) : List Extract :=
  arrange_best_segments (extract_best_segment_per_clip clips L) maxTotal minSeg

/-! ## Audio Scorer (`audio_energy_for_segment`) -/

/-- The audio track of a clip, abstracted: `subclipDuration ts te` is
`clip.audio.subclip(ts, te).duration` (possibly `None`), and
`toSoundarray ts te tt fps` is the fallible decode
`subclip.to_soundarray(tt=times, fps=fps)`, returning the sample rows
(each row the per-channel amplitudes) or a decoding error. -/
structure Audio where
  subclipDuration : ℚ → ℚ → Option ℚ
  toSoundarray : ℚ → ℚ → List ℚ → ℚ → Except Unit (List (List ℚ))

/-- A clip as the audio scorer observes it: an optional audio track. -/
structure AudioClip where
  audio : Option Audio

/-- `duration = audio_subclip.duration or (t_end - t_start)`: the Python
`or` falls back when the attribute is `None` or `0`. -/
def audioDuration (a : Audio) (ts te : ℚ) : ℚ :=
  match a.subclipDuration ts te with
  | some d => if d = 0 then te - ts else d
  | none => te - ts

/-- `num_samples = min(1000, int(duration * 1000))`; `int` truncation on a
positive value is the floor. -/
def audioNumSamples (d : ℚ) : ℤ := min 1000 (Int.floor (d * 1000))

/-- `np.linspace(a, b, n, endpoint=False)`. -/
def linspaceNoEndpoint (a b : ℚ) (n : ℕ) : List ℚ :=
  (List.range n).map (fun k => a + (b - a) * k / n)

/-- The sample times `np.linspace(0, duration, num_samples, endpoint=False)`
passed to `to_soundarray`. -/
def audioTimes (a : Audio) (ts te : ℚ) : List ℚ :=
  linspaceNoEndpoint 0 (audioDuration a ts te) (audioNumSamples (audioDuration a ts te)).toNat

/-- Arithmetic mean of a list (0 on the empty list, via division by 0). -/
def listMean (xs : List ℚ) : ℚ := xs.sum / (xs.length : ℚ)

/-- Computable stand-in for the float square root; the claims about the
audio scorer do not depend on its value, only on which branch produced it. -/
def ratSqrt (q : ℚ) : ℚ := (Nat.sqrt (q.num.toNat * q.den) : ℚ) / (q.den : ℚ)

/-- `rms = sqrt(mean(arr_mono ** 2))`. -/
def rmsOf (xs : List ℚ) : ℚ := ratSqrt (listMean (xs.map (fun x => x * x)))

/-- `audio_energy_for_segment` from the source.  The `try/except` of the
source is embedded by pattern matching on the fallible decode: an
`Except.error` is the caught-and-logged branch returning `0.0`.  Multi-channel
rows are reduced to mono by the channel mean (a mono row is a single-element
row, whose mean is itself). -/
def audio_energy_for_segment (clip : AudioClip) (tStart tEnd : ℚ) : ℚ :=
  match clip.audio with
  | none => 0
  | some a =>
    if audioDuration a tStart tEnd ≤ 0 then 0
    else if max 0 (audioDuration a tStart tEnd - 1 / 1000) ≤ 0 then 0
    else if audioNumSamples (audioDuration a tStart tEnd) ≤ 0 then 0
    else
      match a.toSoundarray tStart tEnd (audioTimes a tStart tEnd) 22050 with
      | Except.error _ => 0
      | Except.ok arr => rmsOf (arr.map listMean)

/-! ## Resource model: handles, the Exporter and the Orchestrator -/

/-- The error classes raised by the pipeline. -/
inductive PyErr
  | valueErrorNoClips
  | valueErrorNoVideos
  | writeFailure
deriving DecidableEq

/-- Open-handle state: the ids of currently open decoder handles, the next
fresh id, and whether an output file has been written. -/
structure RState where
  opened : List ℕ
  next : ℕ
  wrote : Bool
deriving DecidableEq

/-- Open a fresh decoder handle (`VideoFileClip`, `AudioFileClip`,
`concatenate_videoclips`, ...). -/
def alloc (s : RState) : ℕ × RState :=
  (s.next, ⟨s.next :: s.opened, s.next + 1, s.wrote⟩)

/-- `close()` a handle.  Derived clips (`resize`, `subclip`, `volumex`,
`set_audio`) share their parent's reader, so they carry the same handle and
closing either closes the shared resource; a second close is a no-op. -/
def closeH (h : ℕ) (s : RState) : RState :=
  ⟨s.opened.erase h, s.next, s.wrote⟩

/-- Close an optional handle (the `if au is not None: au.close()` pattern). -/
def closeOpt : Option ℕ → RState → RState
  | none, s => s
  | some h, s => closeH h s

/-- The `finally` block of `concat_and_export`: close every passed clip, then
`mixed_audio`, `music_loop`, `music_clip` when set. -/
def runFinally (clips : List ℕ) (mixedAudio musicLoop musicClip : Option ℕ) (s : RState) : RState :=
  closeOpt musicClip (closeOpt musicLoop (closeOpt mixedAudio
    (clips.foldl (fun acc c => closeH c acc) s)))

/-- The `try` body of `concat_and_export`.  Returns the outcome, the three
audio variables visible to the `finally` block, and the state.
`hasOrigAudio` models whether the concatenated video has an audio track;
`bgMusic` whether `bg_music_path` is given and exists; `writeFails` injects a
failure of `write_videofile`.  `final_clip.close()` runs only after a
successful write, as in the source. -/
def concatBody (clips : List ℕ) (hasOrigAudio bgMusic writeFails : Bool) (st : RState) :
    Except PyErr Unit × (Option ℕ × Option ℕ × Option ℕ) × RState :=
  if clips = [] then (Except.error PyErr.valueErrorNoClips, (none, none, none), st)
  else
    let (f, st1) := alloc st
    if bgMusic then
      let (m, st2) := alloc st1
      let (l, st3) := alloc st2
      let (mixed, st4) :=
        if hasOrigAudio then alloc st3
        else (l, st3)
      if writeFails then (Except.error PyErr.writeFailure, (some mixed, some l, some m), st4)
      else (Except.ok (), (some mixed, some l, some m),
            closeH f { st4 with wrote := true })
    else
      if writeFails then (Except.error PyErr.writeFailure, (none, none, none), st1)
      else (Except.ok (), (none, none, none), closeH f { st1 with wrote := true })

/-- `concat_and_export` from the source: the `try` body followed by the
`finally` block on every path. -/
def concat_and_export (clips : List ℕ) (hasOrigAudio bgMusic writeFails : Bool) (st : RState) :
    Except PyErr Unit × RState :=
  match concatBody clips hasOrigAudio bgMusic writeFails st with
  | (r, (mixed, loop, music), st') => (r, runFinally clips mixed loop music st')

/-- A directory entry as `available_vids` observes it. -/
structure FileEntry where
  isFile : Bool
  ext : String
deriving DecidableEq

/-- The four-format allow-list `FORMATS`. -/
def FORMATS : List String := [".mp4", ".avi", ".mkv", ".mov"]

/-- `available_vids` from the source: the files of the folder whose extension
is in the allow-list; every other entry is ignored.  Each qualifying entry
carries the clip data that loading it would produce. -/
def available_vids (folder : List (FileEntry × Clip)) : List (FileEntry × Clip) :=
  folder.filter (fun v => v.1.isFile && decide (v.1.ext ∈ FORMATS))

/-- The loading loop of `load_and_normalize_vids`: `VideoFileClip` opens a
handle per qualifying video; `resize` derives a clip sharing that handle. -/
def loadGo : List (FileEntry × Clip) → RState → List (ℕ × Clip) × RState
  | [], st => ([], st)
  | (_, c) :: rest, st =>
    let (h, st1) := alloc st
    let (tl, st2) := loadGo rest st1
    ((h, c) :: tl, st2)

/-- `load_and_normalize_vids` from the source. -/
def load_and_normalize_vids (folder : List (FileEntry × Clip)) (st : RState) :
    List (ℕ × Clip) × RState :=
  loadGo (available_vids folder) st

/-- `build_travel_summary_smart` from the source: enumerate, guard against an
empty enumeration, load, select, pack (`min_segment_duration` keeps its
default `1.5`), export.  A packed extract is `subclip` of its source clip and
shares its handle.  The output path, resolution and fps do not affect the
modelled behaviour and are omitted. -/
def build_travel_summary_smart (folder : List (FileEntry × Clip)) (L maxTotal : ℚ)
    (hasOrigAudio bgMusic writeFails : Bool) (st : RState) : Except PyErr Unit × RState :=
  if (available_vids folder).isEmpty then (Except.error PyErr.valueErrorNoVideos, st)
  else
    let (clips, st1) := load_and_normalize_vids folder st
    let segments := extract_best_segment_per_clip (clips.map Prod.snd) L
    let extracts := arrange_best_segments segments maxTotal (3 / 2)
    let handles := extracts.map (fun e => (clips.map Prod.fst).getD e.clip_index 0)
    concat_and_export handles hasOrigAudio bgMusic writeFails st1

/-! ## Splitter lemmas -/

/-- Once the loop variable has reached the duration, the splitter loop stops. -/
theorem splitGo_stop (L D : ℚ) (fuel : ℕ) (t : ℚ) (h : D ≤ t) : splitGo L D fuel t = [] := by
  cases fuel with
  | zero => rfl
  | succ n =>
    unfold splitGo
    rw [if_neg (not_lt.mpr h)]

/-- With `L ≥ 1`, a window that is dropped as too short can only be the final
truncated one, so its end is the clip duration. -/
theorem dropped_end {L D t : ℚ} (hL : 1 ≤ L) (h : min (t + L) D - t < 1) :
    min (t + L) D = D := by
  rcases min_choice (t + L) D with hc | hc
  · exfalso
    rw [hc, add_sub_cancel_left] at h
    linarith
  · exact hc

/-- Every window produced from position `t` onwards has length at least one,
starts no earlier than `t`, ends within the duration, and is either a full
step of `L` or the final truncation to `D`. -/
theorem splitGo_mem {L D : ℚ} (hL : 1 ≤ L) :
    ∀ (fuel : ℕ) (t : ℚ) (w : ℚ × ℚ), w ∈ splitGo L D fuel t →
      1 ≤ w.2 - w.1 ∧ t ≤ w.1 ∧ w.2 ≤ D ∧ (w.2 = w.1 + L ∨ w.2 = D) := by
  intro fuel
  induction fuel with
  | zero => intro t w hw; simp [splitGo] at hw
  | succ n ih =>
    intro t w hw
    unfold splitGo at hw
    by_cases htD : t < D
    · rw [if_pos htD] at hw
      have htle : t ≤ min (t + L) D := le_min (by linarith) (le_of_lt htD)
      by_cases hkeep : 1 ≤ min (t + L) D - t
      · rw [if_pos hkeep] at hw
        rcases List.mem_cons.mp hw with heq | hmem
        · subst heq
          refine ⟨hkeep, le_refl _, min_le_right _ _, ?_⟩
          rcases min_choice (t + L) D with hc | hc
          · exact Or.inl hc
          · exact Or.inr hc
        · obtain ⟨h1, h2, h3, h4⟩ := ih (min (t + L) D) w hmem
          exact ⟨h1, le_trans htle h2, h3, h4⟩
      · rw [if_neg hkeep] at hw
        obtain ⟨h1, h2, h3, h4⟩ := ih (min (t + L) D) w hw
        exact ⟨h1, le_trans htle h2, h3, h4⟩
    · rw [if_neg htD] at hw
      simp at hw

/-- With `L ≥ 1` the first produced window starts exactly at the current
position: a dropped window ends the loop, so it never precedes a kept one. -/
theorem splitGo_head {L D : ℚ} (hL : 1 ≤ L) :
    ∀ (fuel : ℕ) (t : ℚ) (w : ℚ × ℚ), (splitGo L D fuel t).head? = some w → w.1 = t := by
  intro fuel
  induction fuel with
  | zero => intro t w hw; simp [splitGo] at hw
  | succ n ih =>
    intro t w hw
    unfold splitGo at hw
    by_cases htD : t < D
    · rw [if_pos htD] at hw
      by_cases hkeep : 1 ≤ min (t + L) D - t
      · rw [if_pos hkeep] at hw
        rw [List.head?_cons, Option.some.injEq] at hw
        subst hw
        rfl
      · rw [if_neg hkeep] at hw
        rw [dropped_end hL (not_le.mp hkeep), splitGo_stop L D n D le_rfl] at hw
        simp at hw
    · rw [if_neg htD] at hw
      simp at hw

/-- Consecutive windows are adjacent: each one ends where the next starts. -/
theorem splitGo_chain {L D : ℚ} (hL : 1 ≤ L) :
    ∀ (fuel : ℕ) (t : ℚ), List.Chain' (fun a b : ℚ × ℚ => a.2 = b.1) (splitGo L D fuel t) := by
  intro fuel
  induction fuel with
  | zero => intro t; simp [splitGo]
  | succ n ih =>
    intro t
    unfold splitGo
    by_cases htD : t < D
    · rw [if_pos htD]
      by_cases hkeep : 1 ≤ min (t + L) D - t
      · rw [if_pos hkeep]
        refine List.chain'_cons'.mpr ⟨?_, ih _⟩
        intro w hw
        exact (splitGo_head hL n _ w (Option.mem_def.mp hw)).symm
      · rw [if_neg hkeep]
        exact ih _
    · rw [if_neg htD]
      simp

/-- Given enough fuel for the loop to finish, either no window is produced
and less than one unit of duration remained, or the last window ends within
one unit of the duration: only a sub-unit trailing remainder is dropped. -/
theorem splitGo_last {L D : ℚ} (hL : 1 ≤ L) :
    ∀ (fuel : ℕ) (t : ℚ), D - t ≤ (fuel : ℚ) * L →
      (splitGo L D fuel t = [] → D - t < 1) ∧
      (∀ w : ℚ × ℚ, (splitGo L D fuel t).getLast? = some w → D - w.2 < 1) := by
  intro fuel
  induction fuel with
  | zero =>
    intro t hfuel
    constructor
    · intro _
      simp only [Nat.cast_zero, zero_mul] at hfuel
      linarith
    · intro w hw
      simp [splitGo] at hw
  | succ n ih =>
    intro t hfuel
    by_cases htD : t < D
    · have hL0 : (0 : ℚ) < L := lt_of_lt_of_le one_pos hL
      have hfuel' : D - min (t + L) D ≤ (n : ℚ) * L := by
        rcases min_choice (t + L) D with hc | hc
        · rw [hc]
          push_cast at hfuel
          linarith
        · rw [hc]
          have : (0 : ℚ) ≤ (n : ℚ) * L := mul_nonneg (Nat.cast_nonneg n) (le_of_lt hL0)
          linarith
      constructor
      · intro hnil
        unfold splitGo at hnil
        rw [if_pos htD] at hnil
        by_cases hkeep : 1 ≤ min (t + L) D - t
        · rw [if_pos hkeep] at hnil
          exact absurd hnil (List.cons_ne_nil _ _)
        · have hend := dropped_end hL (not_le.mp hkeep)
          rw [hend] at hkeep
          linarith [not_le.mp hkeep]
      · intro w hw
        unfold splitGo at hw
        rw [if_pos htD] at hw
        by_cases hkeep : 1 ≤ min (t + L) D - t
        · rw [if_pos hkeep] at hw
          rcases hnil : splitGo L D n (min (t + L) D) with _ | ⟨a, rest⟩
          · rw [hnil] at hw
            simp only [List.getLast?_singleton, Option.some.injEq] at hw
            subst hw
            exact (ih (min (t + L) D) hfuel').1 hnil
          · rw [hnil, List.getLast?_cons_cons] at hw
            exact (ih (min (t + L) D) hfuel').2 w (by rw [hnil]; exact hw)
        · rw [if_neg hkeep] at hw
          rw [dropped_end hL (not_le.mp hkeep), splitGo_stop L D n D le_rfl] at hw
          simp at hw
    · constructor
      · intro _
        have := not_lt.mp htD
        linarith
      · intro w hw
        rw [splitGo_stop L D (n + 1) t (not_lt.mp htD)] at hw
        simp at hw

/-- The fuel supplied by `split_in_segments` suffices when `L ≥ 1`. -/
theorem split_fuel_bound {D L : ℚ} (hL : 1 ≤ L) :
    D - 0 ≤ ((Nat.ceil (D / L) + 1 : ℕ) : ℚ) * L := by
  have hL0 : (0 : ℚ) < L := lt_of_lt_of_le one_pos hL
  have h1 : D / L ≤ (Nat.ceil (D / L) : ℚ) := Nat.le_ceil _
  have h2 : D ≤ (Nat.ceil (D / L) : ℚ) * L := (div_le_iff₀ hL0).mp h1
  push_cast
  linarith

/-- A non-positive duration yields no windows at all. -/
theorem split_in_segments_eq_nil_of_nonpos (D L : ℚ) (hD : D ≤ 0) :
    split_in_segments D L = [] :=
  splitGo_stop L D _ 0 hD

/-- When `L < 1` every candidate window is shorter than one unit, so the
`≥ 1.0` filter drops all of them. -/
theorem splitGo_short (L D : ℚ) (hL1 : L < 1) :
    ∀ (fuel : ℕ) (t : ℚ), splitGo L D fuel t = [] := by
  intro fuel
  induction fuel with
  | zero => intro t; rfl
  | succ n ih =>
    intro t
    unfold splitGo
    by_cases htD : t < D
    · have hshort : ¬ 1 ≤ min (t + L) D - t := by
        have h1 := min_le_left (t + L) D
        intro hcon
        linarith
      rw [if_pos htD, if_neg hshort]
      exact ih _
    · rw [if_neg htD]

/-! ## Packer lemmas -/

/-- Loop invariant of the packer: when the running total is within the
budget, the total after packing the remaining segments stays within it. -/
theorem arrangeGo_total_le (maxTotal minSeg : ℚ) :
    ∀ (segs : List Segment) (total : ℚ), total ≤ maxTotal →
      total + totalDuration (arrangeGo maxTotal minSeg segs total) ≤ maxTotal := by
  intro segs
  induction segs with
  | nil =>
    intro total h
    simp only [arrangeGo, totalDuration, List.map_nil, List.sum_nil, add_zero]
    exact h
  | cons seg rest ih =>
    intro total h
    unfold arrangeGo
    by_cases h1 : seg.t_end - seg.t_start < minSeg
    · rw [if_pos h1]
      exact ih total h
    · rw [if_neg h1]
      by_cases h2 : maxTotal < total + (seg.t_end - seg.t_start)
      · rw [if_pos h2]
        by_cases h3 : minSeg ≤ maxTotal - total
        · rw [if_pos h3]
          simp only [totalDuration, List.map_cons, List.map_nil, List.sum_cons, List.sum_nil,
            extractDur]
          ring_nf
          linarith
        · rw [if_neg h3]
          simp only [totalDuration, List.map_nil, List.sum_nil, add_zero]
          exact h
      · rw [if_neg h2]
        simp only [totalDuration, List.map_cons, List.sum_cons, extractDur]
        have hrec := ih (total + (seg.t_end - seg.t_start)) (not_lt.mp h2)
        unfold totalDuration at hrec
        linarith

/-! ## Selector lemmas -/

/-- Invariant of the selection fold: from a synchronized accumulator
`(some b, ↑b.score)` the fold returns a synchronized pair; the result is the
accumulator when no window strictly beats it, and otherwise the first window
achieving the maximum score of the remaining windows. -/
theorem bestFold_acc_spec (idx : ℕ) (c : Clip) :
    ∀ (ws : List (ℚ × ℚ)) (b : Segment),
      ∃ b', bestFold idx c ws (some b, (b.score : WithBot ℚ)) =
              (some b', (b'.score : WithBot ℚ)) ∧
        ((b' = b ∧ ∀ u ∈ ws, c.score u.1 u.2 ≤ b.score) ∨
         (∃ pre w suf, ws = pre ++ w :: suf ∧
            b' = ⟨idx, w.1, w.2, c.score w.1 w.2⟩ ∧
            b.score < b'.score ∧
            (∀ u ∈ pre, c.score u.1 u.2 < b'.score) ∧
            (∀ u ∈ ws, c.score u.1 u.2 ≤ b'.score))) := by
  intro ws
  induction ws with
  | nil =>
    intro b
    exact ⟨b, rfl, Or.inl ⟨rfl, by simp⟩⟩
  | cons w rest ih =>
    rcases w with ⟨ts, te⟩
    intro b
    by_cases hgt : b.score < c.score ts te
    · obtain ⟨b', hb', hcase⟩ := ih ⟨idx, ts, te, c.score ts te⟩
      refine ⟨b', ?_, ?_⟩
      · simp only [bestFold]
        rw [if_pos (WithBot.coe_lt_coe.mpr hgt)]
        exact hb'
      · rcases hcase with ⟨hbb, hall⟩ | ⟨pre, w', suf, hws, hb'w, hlt, hpre, hall⟩
        · subst hbb
          refine Or.inr ⟨[], (ts, te), rest, rfl, rfl, hgt, ?_, ?_⟩
          · intro u hu
            simp at hu
          · intro u hu
            rcases List.mem_cons.mp hu with rfl | hu'
            · exact le_refl _
            · exact hall u hu'
        · refine Or.inr ⟨(ts, te) :: pre, w', suf, by simp [hws], hb'w, lt_trans hgt hlt, ?_, ?_⟩
          · intro u hu
            rcases List.mem_cons.mp hu with rfl | hu'
            · exact hlt
            · exact hpre u hu'
          · intro u hu
            rcases List.mem_cons.mp hu with rfl | hu'
            · exact le_of_lt hlt
            · exact hall u hu'
    · obtain ⟨b', hb', hcase⟩ := ih b
      refine ⟨b', ?_, ?_⟩
      · simp only [bestFold]
        rw [if_neg (fun hc => hgt (WithBot.coe_lt_coe.mp hc))]
        exact hb'
      · rcases hcase with ⟨hbb, hall⟩ | ⟨pre, w', suf, hws, hb'w, hlt, hpre, hall⟩
        · subst hbb
          refine Or.inl ⟨rfl, ?_⟩
          intro u hu
          rcases List.mem_cons.mp hu with rfl | hu'
          · exact not_lt.mp hgt
          · exact hall u hu'
        · refine Or.inr ⟨(ts, te) :: pre, w', suf, by simp [hws], hb'w, hlt, ?_, ?_⟩
          · intro u hu
            rcases List.mem_cons.mp hu with rfl | hu'
            · exact lt_of_le_of_lt (not_lt.mp hgt) hlt
            · exact hpre u hu'
          · intro u hu
            rcases List.mem_cons.mp hu with rfl | hu'
            · exact le_of_lt (lt_of_le_of_lt (not_lt.mp hgt) hlt)
            · exact hall u hu'

/-- The first window always replaces the `-inf` initial accumulator, so on a
non-empty window list the fold returns the first window achieving the
maximum score, with the clip index it was built from. -/
theorem bestFold_spec (idx : ℕ) (c : Clip) (ws : List (ℚ × ℚ)) (h : ws ≠ []) :
    ∃ b', (bestFold idx c ws (none, ⊥)).1 = some b' ∧
      b'.clip_index = idx ∧
      b'.score = c.score b'.t_start b'.t_end ∧
      (∃ pre suf, ws = pre ++ (b'.t_start, b'.t_end) :: suf ∧
        ∀ u ∈ pre, c.score u.1 u.2 < b'.score) ∧
      (∀ u ∈ ws, c.score u.1 u.2 ≤ b'.score) := by
  match ws, h with
  | (ts, te) :: rest, _ =>
    have hstep : bestFold idx c ((ts, te) :: rest) (none, ⊥) =
        bestFold idx c rest
          (some ⟨idx, ts, te, c.score ts te⟩, (c.score ts te : WithBot ℚ)) := by
      simp only [bestFold]
      rw [if_pos (WithBot.bot_lt_coe _)]
    obtain ⟨b', hb', hcase⟩ := bestFold_acc_spec idx c rest ⟨idx, ts, te, c.score ts te⟩
    rw [hstep, hb']
    rcases hcase with ⟨hbb, hall⟩ | ⟨pre, w', suf, hws, hb'w, hlt, hpre, hall⟩
    · subst hbb
      refine ⟨_, rfl, rfl, rfl, ⟨[], rest, rfl, by intro u hu; simp at hu⟩, ?_⟩
      intro u hu
      rcases List.mem_cons.mp hu with rfl | hu'
      · exact le_refl _
      · exact hall u hu'
    · rcases w' with ⟨ws1, ws2⟩
      subst hb'w
      refine ⟨_, rfl, rfl, rfl, ⟨(ts, te) :: pre, suf, by simp [hws], ?_⟩, ?_⟩
      · intro u hu
        rcases List.mem_cons.mp hu with rfl | hu'
        · exact hlt
        · exact hpre u hu'
      · intro u hu
        rcases List.mem_cons.mp hu with rfl | hu'
        · exact le_of_lt hlt
        · exact hall u hu'

/-- The fold result is `None` only when the clip produced no windows. -/
theorem bestFold_fst_none (idx : ℕ) (c : Clip) (ws : List (ℚ × ℚ))
    (h : (bestFold idx c ws (none, ⊥)).1 = none) : ws = [] := by
  by_contra hne
  obtain ⟨b', hb', _⟩ := bestFold_spec idx c ws hne
  rw [hb'] at h
  exact Option.noConfusion h

/-- Every selected segment comes from the clip at its recorded index, its
window is one of that clip's windows, its score is that window's score, it
beats all earlier windows strictly and all windows weakly. -/
theorem extractGo_mem (L : ℚ) :
    ∀ (clips : List Clip) (idx : ℕ) (s : Segment), s ∈ extractGo L idx clips →
      idx ≤ s.clip_index ∧
      ∃ c, clips.get? (s.clip_index - idx) = some c ∧
        s.score = c.score s.t_start s.t_end ∧
        (∃ pre suf, split_in_segments c.duration L = pre ++ (s.t_start, s.t_end) :: suf ∧
          ∀ u ∈ pre, c.score u.1 u.2 < s.score) ∧
        (∀ u ∈ split_in_segments c.duration L, c.score u.1 u.2 ≤ s.score) := by
  intro clips
  induction clips with
  | nil =>
    intro idx s hs
    simp [extractGo] at hs
  | cons c rest ih =>
    intro idx s hs
    unfold extractGo at hs
    rcases List.mem_append.mp hs with hhead | htail
    · cases hb : (bestFold idx c (split_in_segments c.duration L) (none, ⊥)).1 with
      | none =>
        rw [hb] at hhead
        simp at hhead
      | some b =>
        rw [hb] at hhead
        simp only [Option.toList_some, List.mem_singleton] at hhead
        subst hhead
        have hne : split_in_segments c.duration L ≠ [] := by
          intro hnil
          rw [hnil] at hb
          simp only [bestFold] at hb
          exact Option.noConfusion hb
        obtain ⟨b', hb', hidx, hscore, hwin, hall⟩ := bestFold_spec idx c _ hne
        rw [hb] at hb'
        obtain rfl : s = b' := Option.some.inj hb'
        rw [hidx]
        refine ⟨le_refl idx, c, ?_, hscore, hwin, hall⟩
        simp
    · obtain ⟨h1, c', hc', hrest⟩ := ih (idx + 1) s htail
      refine ⟨by omega, c', ?_, hrest⟩
      have hidx : s.clip_index - idx = (s.clip_index - (idx + 1)) + 1 := by omega
      rw [hidx]
      simpa using hc'

/-- Lower bound on selected indices: the running enumeration index. -/
theorem extractGo_lb (L : ℚ) (clips : List Clip) (idx : ℕ) (s : Segment)
    (hs : s ∈ extractGo L idx clips) : idx ≤ s.clip_index :=
  (extractGo_mem L clips idx s hs).1

/-- Selected clip indices appear in strictly increasing order. -/
theorem extractGo_sorted (L : ℚ) :
    ∀ (clips : List Clip) (idx : ℕ),
      List.Sorted (· < ·) ((extractGo L idx clips).map Segment.clip_index) := by
  intro clips
  induction clips with
  | nil =>
    intro idx
    simp [extractGo]
  | cons c rest ih =>
    intro idx
    unfold extractGo
    cases hb : (bestFold idx c (split_in_segments c.duration L) (none, ⊥)).1 with
    | none =>
      simpa using ih (idx + 1)
    | some b =>
      have hne : split_in_segments c.duration L ≠ [] := by
        intro hnil
        rw [hnil] at hb
        simp only [bestFold] at hb
        exact Option.noConfusion hb
      obtain ⟨b', hb', hidx, _⟩ := bestFold_spec idx c _ hne
      rw [hb] at hb'
      obtain rfl : b = b' := Option.some.inj hb'
      simp only [Option.toList_some, List.singleton_append, List.map_cons, List.sorted_cons]
      refine ⟨?_, ih (idx + 1)⟩
      intro x hx
      obtain ⟨s, hs, rfl⟩ := List.mem_map.mp hx
      have := extractGo_lb L rest (idx + 1) s hs
      omega

/-- No selected segment carries an index below the enumeration start. -/
theorem extractGo_filter_lt (L : ℚ) (clips : List Clip) (idx k : ℕ) (hk : k < idx) :
    (extractGo L idx clips).filter (fun s => s.clip_index == k) = [] := by
  rw [List.filter_eq_nil_iff]
  intro s hs
  have := extractGo_lb L clips idx s hs
  simp only [beq_iff_eq]
  omega

/-- Exactly one segment is selected for a clip producing windows, and none
for a clip producing no window. -/
theorem extractGo_count (L : ℚ) :
    ∀ (clips : List Clip) (idx i : ℕ) (c : Clip), clips.get? i = some c →
      ((extractGo L idx clips).filter (fun s => s.clip_index == idx + i)).length =
        (if split_in_segments c.duration L = [] then 0 else 1) := by
  intro clips
  induction clips with
  | nil =>
    intro idx i c hc
    simp at hc
  | cons c0 rest ih =>
    intro idx i c hc
    cases i with
    | zero =>
      simp only [List.get?_cons_zero, Option.some.injEq] at hc
      subst hc
      unfold extractGo
      rw [List.filter_append, List.length_append]
      have htail : (extractGo L (idx + 1) rest).filter (fun s => s.clip_index == idx + 0) = [] :=
        extractGo_filter_lt L rest (idx + 1) (idx + 0) (by omega)
      rw [htail]
      cases hb : (bestFold idx c0 (split_in_segments c0.duration L) (none, ⊥)).1 with
      | none =>
        rw [if_pos (bestFold_fst_none idx c0 _ hb)]
        simp
      | some b =>
        have hne : split_in_segments c0.duration L ≠ [] := by
          intro hnil
          rw [hnil] at hb
          simp only [bestFold] at hb
          exact Option.noConfusion hb
        obtain ⟨b', hb', hidx, _⟩ := bestFold_spec idx c0 _ hne
        rw [hb] at hb'
        obtain rfl : b = b' := Option.some.inj hb'
        rw [if_neg hne]
        simp [hidx]
    | succ j =>
      simp only [List.get?_cons_succ] at hc
      unfold extractGo
      rw [List.filter_append, List.length_append]
      have hstep : idx + (j + 1) = (idx + 1) + j := by omega
      have htail := ih (idx + 1) j c hc
      rw [hstep, htail]
      cases hb : (bestFold idx c0 (split_in_segments c0.duration L) (none, ⊥)).1 with
      | none =>
        simp
      | some b =>
        have hne : split_in_segments c0.duration L ≠ [] := by
          intro hnil
          rw [hnil] at hb
          simp only [bestFold] at hb
          exact Option.noConfusion hb
        obtain ⟨b', hb', hidx, _⟩ := bestFold_spec idx c0 _ hne
        rw [hb] at hb'
        obtain rfl : b = b' := Option.some.inj hb'
        have hno : (b.clip_index == (idx + 1) + j) = false := by
          simp only [beq_eq_false_iff_ne, ne_eq]
          omega
        simp only [hno, List.filter_cons, Option.toList_some, List.filter_nil, hidx]
        simp
        omega

/-! ## Claim theorems -/

/-- Claim C1, amended with `0 ≤ max_total_duration`: the Budget Packer
returns extracts whose durations sum to at most the budget; it skips any
segment whose raw duration is below `min_segment_duration`, and at the first
segment whose full duration would exceed the remaining budget it appends
exactly the truncated extract of duration `remaining` starting at the
segment's start when `remaining ≥ min_segment_duration`, or nothing, and in
both cases stops, so no later segment is ever included. -/
theorem claim_C1 (segs : List Segment) (maxTotal minSeg total : ℚ)
    (seg : Segment) (rest : List Segment) (hmax : 0 ≤ maxTotal) :
    totalDuration (arrange_best_segments segs maxTotal minSeg) ≤ maxTotal ∧
    (seg.t_end - seg.t_start < minSeg →
      arrangeGo maxTotal minSeg (seg :: rest) total = arrangeGo maxTotal minSeg rest total) ∧
    (¬ seg.t_end - seg.t_start < minSeg →
      maxTotal < total + (seg.t_end - seg.t_start) →
      arrangeGo maxTotal minSeg (seg :: rest) total =
        if minSeg ≤ maxTotal - total then
          [⟨seg.clip_index, seg.t_start, seg.t_start + (maxTotal - total)⟩]
        else []) := by
  refine ⟨?_, ?_, ?_⟩
  · have h := arrangeGo_total_le maxTotal minSeg segs 0 hmax
    rw [arrange_best_segments]
    linarith
  · intro h1
    simp only [arrangeGo]
    rw [if_pos h1]
  · intro h1 h2
    simp only [arrangeGo]
    rw [if_neg h1, if_pos h2]

/-- Claim C1 witness: the packer on two six-second segments with budget 6
and the overflow equations at a concrete state. -/
theorem claim_C1_witness :
    (0 : ℚ) ≤ 6 ∧
    (totalDuration (arrange_best_segments [⟨0, 0, 6, 1⟩, ⟨1, 0, 6, 1⟩] 6 (3 / 2)) ≤ 6 ∧
     ((⟨1, 0, 6, 1⟩ : Segment).t_end - (⟨1, 0, 6, 1⟩ : Segment).t_start < 3 / 2 →
       arrangeGo 6 (3 / 2) [⟨1, 0, 6, 1⟩] 6 = arrangeGo 6 (3 / 2) [] 6) ∧
     (¬ (⟨1, 0, 6, 1⟩ : Segment).t_end - (⟨1, 0, 6, 1⟩ : Segment).t_start < 3 / 2 →
       (6 : ℚ) < 6 + ((⟨1, 0, 6, 1⟩ : Segment).t_end - (⟨1, 0, 6, 1⟩ : Segment).t_start) →
       arrangeGo 6 (3 / 2) [⟨1, 0, 6, 1⟩] 6 =
         if (3 / 2 : ℚ) ≤ 6 - 6 then [⟨1, 0, 0 + ((6 : ℚ) - 6)⟩] else [])) :=
  ⟨by norm_num, claim_C1 [⟨0, 0, 6, 1⟩, ⟨1, 0, 6, 1⟩] 6 (3 / 2) 6 ⟨1, 0, 6, 1⟩ [] (by norm_num)⟩

/-- Claim C1 counterexample: with a negative `max_total_duration = -1` the
packer appends nothing, so the duration sum is `0 > -1`, refuting the claim
for every `max_total_duration`. -/
theorem claim_C1_cex :
    ¬ totalDuration (arrange_best_segments [⟨0, 0, 2, 0⟩] (-1) (3 / 2)) ≤ -1 := by
  norm_num [arrange_best_segments, arrangeGo, totalDuration]

/-- Claim C2, amended with `segment_length ≥ 1`: the splitter returns
ordered adjacent windows starting at 0 that cover `[0, D)` in steps of `L`
(each window is a full step or the final truncation to `D`), only a trailing
remainder shorter than one unit is dropped, and `D ≤ 0` yields no windows. -/
theorem claim_C2 (D L : ℚ) (hL : 1 ≤ L) :
    (D ≤ 0 → split_in_segments D L = []) ∧
    (∀ w ∈ split_in_segments D L,
      1 ≤ w.2 - w.1 ∧ 0 ≤ w.1 ∧ w.2 ≤ D ∧ (w.2 = w.1 + L ∨ w.2 = D)) ∧
    List.Chain' (fun a b : ℚ × ℚ => a.2 = b.1) (split_in_segments D L) ∧
    (∀ w : ℚ × ℚ, (split_in_segments D L).head? = some w → w.1 = 0) ∧
    (split_in_segments D L = [] → D < 1) ∧
    (∀ w : ℚ × ℚ, (split_in_segments D L).getLast? = some w → D - w.2 < 1) := by
  refine ⟨?_, ?_, ?_, ?_, ?_, ?_⟩
  · intro hD
    exact splitGo_stop L D _ 0 hD
  · intro w hw
    obtain ⟨h1, h2, h3, h4⟩ := splitGo_mem hL _ 0 w hw
    exact ⟨h1, h2, h3, h4⟩
  · exact splitGo_chain hL _ 0
  · intro w hw
    exact splitGo_head hL _ 0 w hw
  · intro h
    have := (splitGo_last hL _ 0 (split_fuel_bound hL)).1 h
    linarith
  · intro w hw
    exact (splitGo_last hL _ 0 (split_fuel_bound hL)).2 w hw

/-- Claim C2 witness: the amended claim evaluated at duration 5 and
segment length 2. -/
theorem claim_C2_witness :
    (1 : ℚ) ≤ 2 ∧
    (((5 : ℚ) ≤ 0 → split_in_segments 5 2 = []) ∧
     (∀ w ∈ split_in_segments 5 2,
       1 ≤ w.2 - w.1 ∧ 0 ≤ w.1 ∧ w.2 ≤ 5 ∧ (w.2 = w.1 + 2 ∨ w.2 = 5)) ∧
     List.Chain' (fun a b : ℚ × ℚ => a.2 = b.1) (split_in_segments 5 2) ∧
     (∀ w : ℚ × ℚ, (split_in_segments 5 2).head? = some w → w.1 = 0) ∧
     (split_in_segments 5 2 = [] → (5 : ℚ) < 1) ∧
     (∀ w : ℚ × ℚ, (split_in_segments 5 2).getLast? = some w → (5 : ℚ) - w.2 < 1)) :=
  ⟨by norm_num, claim_C2 5 2 (by norm_num)⟩

/-- Claim C2 counterexample: with `segment_length = 1/2 > 0` and duration 2
the splitter returns no windows at all (every window is shorter than one
unit and is dropped), so the windows do not cover `[0, 2)` outside the
trailing remainder: the point `0` lies under no window. -/
theorem claim_C2_cex :
    ¬ (∀ x : ℚ, 0 ≤ x → x + 1 ≤ 2 →
        ∃ w ∈ split_in_segments 2 (1 / 2), w.1 ≤ x ∧ x < w.2) := by
  intro h
  obtain ⟨w, hw, _, _⟩ := h 0 le_rfl (by norm_num)
  rw [split_in_segments, splitGo_short (1 / 2) 2 (by norm_num)] at hw
  simp at hw

/-- Claim C3: the Best-Segment Selector returns at most one segment per
input clip, in clip discovery order (strictly increasing clip indices); it
never returns a segment for a clip of duration 0; and each returned segment
is the earliest window of its clip achieving the maximum score, with its
recorded score being that window's score. -/
theorem claim_C3 (clips : List Clip) (L : ℚ) :
    List.Sorted (· < ·) ((extract_best_segment_per_clip clips L).map Segment.clip_index) ∧
    ∀ s ∈ extract_best_segment_per_clip clips L,
      ∃ c, clips.get? s.clip_index = some c ∧ c.duration ≠ 0 ∧
        s.score = c.score s.t_start s.t_end ∧
        (∃ pre suf, split_in_segments c.duration L = pre ++ (s.t_start, s.t_end) :: suf ∧
          ∀ u ∈ pre, c.score u.1 u.2 < s.score) ∧
        ∀ u ∈ split_in_segments c.duration L, c.score u.1 u.2 ≤ s.score := by
  constructor
  · exact extractGo_sorted L clips 0
  · intro s hs
    obtain ⟨_, c, hc, hsc, hwin, hall⟩ := extractGo_mem L clips 0 s hs
    rw [Nat.sub_zero] at hc
    refine ⟨c, hc, ?_, hsc, hwin, hall⟩
    intro hdur
    obtain ⟨pre, suf, hse, _⟩ := hwin
    rw [split_in_segments_eq_nil_of_nonpos c.duration L (le_of_eq hdur)] at hse
    simp at hse

/-- Claim C3 witness: on one clip of duration 5 scored by window start, the
selector returns the window `(4, 5)` with score 4, and the claim's
properties hold for it. -/
theorem claim_C3_witness :
    ∃ c, [(⟨5, fun ts _ => ts⟩ : Clip)].get? 0 = some c ∧ c.duration ≠ 0 ∧
      (4 : ℚ) = c.score 4 5 ∧
      (∃ pre suf, split_in_segments c.duration 2 = pre ++ ((4 : ℚ), (5 : ℚ)) :: suf ∧
        ∀ u ∈ pre, c.score u.1 u.2 < 4) ∧
      ∀ u ∈ split_in_segments c.duration 2, c.score u.1 u.2 ≤ 4 := by
  have hceil : Nat.ceil ((5 : ℚ) / 2) = 3 := by
    rw [Nat.ceil_eq_iff (by norm_num)]
    norm_num
  have heval : extract_best_segment_per_clip [(⟨5, fun ts _ => ts⟩ : Clip)] 2 =
      [⟨0, 4, 5, 4⟩] := by
    rw [extract_best_segment_per_clip]
    norm_num [extractGo, split_in_segments, hceil, splitGo, min_def, bestFold,
      WithBot.bot_lt_coe, WithBot.coe_lt_coe, -WithBot.coe_ofNat, -WithBot.coe_zero,
      -WithBot.coe_one]
  exact (claim_C3 [⟨5, fun ts _ => ts⟩] 2).2 ⟨0, 4, 5, 4⟩
    (by rw [heval]; exact List.mem_singleton.mpr rfl)

/-- Claim C5: the Audio Scorer returns 0 immediately when the clip has no
audio track, and any decoding failure of the sound-array extraction is
caught and turned into the score 0; the embedded scorer is a total function,
so no exception propagates. -/
theorem claim_C5 (clip : AudioClip) (ts te : ℚ) (a : Audio) :
    (clip.audio = none → audio_energy_for_segment clip ts te = 0) ∧
    (clip.audio = some a →
      a.toSoundarray ts te (audioTimes a ts te) 22050 = Except.error () →
      audio_energy_for_segment clip ts te = 0) := by
  constructor
  · intro h
    simp [audio_energy_for_segment, h]
  · intro h herr
    simp only [audio_energy_for_segment, h]
    by_cases h1 : audioDuration a ts te ≤ 0
    · rw [if_pos h1]
    · rw [if_neg h1]
      by_cases h2 : max 0 (audioDuration a ts te - 1 / 1000) ≤ 0
      · rw [if_pos h2]
      · rw [if_neg h2]
        by_cases h3 : audioNumSamples (audioDuration a ts te) ≤ 0
        · rw [if_pos h3]
        · rw [if_neg h3, herr]

/-- Claim C5 witness: a clip without audio scores 0, and a clip whose audio
decoding always fails scores 0. -/
theorem claim_C5_witness :
    audio_energy_for_segment ⟨none⟩ 0 1 = 0 ∧
    audio_energy_for_segment
      ⟨some ⟨fun _ _ => some 1, fun _ _ _ _ => Except.error ()⟩⟩ 0 1 = 0 :=
  ⟨(claim_C5 ⟨none⟩ 0 1 ⟨fun _ _ => some 1, fun _ _ _ _ => Except.error ()⟩).1 rfl,
   (claim_C5 ⟨some ⟨fun _ _ => some 1, fun _ _ _ _ => Except.error ()⟩⟩ 0 1
      ⟨fun _ _ => some 1, fun _ _ _ _ => Except.error ()⟩).2 rfl rfl⟩

/-- Claim C6: the Exporter raises a `ValueError`-class error on an empty
extract list before any I/O: the handle state is returned unchanged, so no
resource is opened and nothing is written. -/
theorem claim_C6 (hasOrigAudio bgMusic writeFails : Bool) (st : RState) :
    concat_and_export [] hasOrigAudio bgMusic writeFails st =
      (Except.error PyErr.valueErrorNoClips, st) := rfl

/-- Claim C7: when no directory entry is a file with an allow-listed
extension, enumeration is empty and the orchestrator fails with the
no-videos error before opening any clip or writing anything: the handle
state is returned unchanged. -/
theorem claim_C7 (folder : List (FileEntry × Clip)) (L maxTotal : ℚ)
    (hasOrigAudio bgMusic writeFails : Bool) (st : RState)
    (h : ∀ v ∈ folder, ¬(v.1.isFile = true ∧ v.1.ext ∈ FORMATS)) :
    available_vids folder = [] ∧
    build_travel_summary_smart folder L maxTotal hasOrigAudio bgMusic writeFails st =
      (Except.error PyErr.valueErrorNoVideos, st) := by
  have hav : available_vids folder = [] := by
    rw [available_vids, List.filter_eq_nil_iff]
    intro v hv
    simp only [Bool.and_eq_true, decide_eq_true_eq]
    exact fun hcon => h v hv hcon
  refine ⟨hav, ?_⟩
  unfold build_travel_summary_smart
  rw [hav]
  rfl

/-- Claim C7 witness: the empty directory. -/
theorem claim_C7_witness :
    available_vids ([] : List (FileEntry × Clip)) = [] ∧
    build_travel_summary_smart [] 6 85 false false false ⟨[], 0, false⟩ =
      (Except.error PyErr.valueErrorNoVideos, ⟨[], 0, false⟩) :=
  claim_C7 [] 6 85 false false false ⟨[], 0, false⟩ (by intro v hv; simp at hv)

/-- Claim C8: the scored pipeline core is a deterministic function of the
clip durations and the scorer values: two clip lists that agree pointwise in
duration and score produce identical selected windows, identical packed
extracts, and an identical packed total duration. -/
theorem claim_C8 (clips1 clips2 : List Clip) (L maxTotal minSeg : ℚ)
    (hlen : clips1.length = clips2.length)
    (hagree : ∀ i a b, clips1.get? i = some a → clips2.get? i = some b →
      a.duration = b.duration ∧ ∀ ts te, a.score ts te = b.score ts te) :
    extract_best_segment_per_clip clips1 L = extract_best_segment_per_clip clips2 L ∧
    select_and_pack clips1 L maxTotal minSeg = select_and_pack clips2 L maxTotal minSeg ∧
    totalDuration (select_and_pack clips1 L maxTotal minSeg) =
      totalDuration (select_and_pack clips2 L maxTotal minSeg) := by
  have heq : clips1 = clips2 := by
    apply List.ext_get?
    intro i
    cases h1 : clips1.get? i with
    | none =>
      cases h2 : clips2.get? i with
      | none => rfl
      | some b =>
        exfalso
        have hge : clips1.length ≤ i := List.get?_eq_none.mp h1
        obtain ⟨hlt, _⟩ := List.get?_eq_some.mp h2
        omega
    | some a =>
      cases h2 : clips2.get? i with
      | none =>
        exfalso
        have hge : clips2.length ≤ i := List.get?_eq_none.mp h2
        obtain ⟨hlt, _⟩ := List.get?_eq_some.mp h1
        omega
      | some b =>
        obtain ⟨hd, hs⟩ := hagree i a b h1 h2
        have hab : a = b := by
          cases a with
          | mk da sa =>
            cases b with
            | mk db sb =>
              simp only [Clip.mk.injEq]
              exact ⟨hd, funext fun ts => funext fun te => hs ts te⟩
        rw [hab]
  subst heq
  exact ⟨rfl, rfl, rfl⟩

/-- Claim C8 witness: two syntactically equal one-clip inputs give equal
outputs at concrete parameters. -/
theorem claim_C8_witness :
    extract_best_segment_per_clip [(⟨1, fun _ _ => 0⟩ : Clip)] 2 =
      extract_best_segment_per_clip [(⟨1, fun _ _ => 0⟩ : Clip)] 2 ∧
    select_and_pack [(⟨1, fun _ _ => 0⟩ : Clip)] 2 60 (3 / 2) =
      select_and_pack [(⟨1, fun _ _ => 0⟩ : Clip)] 2 60 (3 / 2) ∧
    totalDuration (select_and_pack [(⟨1, fun _ _ => 0⟩ : Clip)] 2 60 (3 / 2)) =
      totalDuration (select_and_pack [(⟨1, fun _ _ => 0⟩ : Clip)] 2 60 (3 / 2)) :=
  claim_C8 [⟨1, fun _ _ => 0⟩] [⟨1, fun _ _ => 0⟩] 2 60 (3 / 2) rfl (by
    intro i a b h1 h2
    cases i with
    | zero =>
      simp only [List.get?_cons_zero, Option.some.injEq] at h1 h2
      subst h1
      subst h2
      exact ⟨rfl, fun _ _ => rfl⟩
    | succ j => simp at h1)

/-- Claim C9: every window returned by the splitter has length at least one
unit and lies within `[0, D]` with a positive extent — the minimum-length
filter applies to every window, so a segment length below one unit yields an
empty result for every duration. -/
theorem claim_C9 (D L : ℚ) (_hL : 0 < L) :
    (∀ w ∈ split_in_segments D L, 1 ≤ w.2 - w.1 ∧ 0 ≤ w.1 ∧ w.1 < w.2 ∧ w.2 ≤ D) ∧
    (L < 1 → split_in_segments D L = []) := by
  constructor
  · intro w hw
    by_cases hL1 : 1 ≤ L
    · obtain ⟨h1, h2, h3, _⟩ := splitGo_mem hL1 _ 0 w hw
      exact ⟨h1, h2, by linarith, h3⟩
    · rw [split_in_segments, splitGo_short L D (not_le.mp hL1)] at hw
      exact absurd hw (List.not_mem_nil w)
  · intro hL1
    exact splitGo_short L D hL1 _ 0

/-- Claim C9 witness: with `segment_length = 1/2` every window of a 5-unit
clip is dropped. -/
theorem claim_C9_witness :
    (0 : ℚ) < 1 / 2 ∧
    ((∀ w ∈ split_in_segments 5 (1 / 2),
        1 ≤ w.2 - w.1 ∧ 0 ≤ w.1 ∧ w.1 < w.2 ∧ w.2 ≤ 5) ∧
     ((1 / 2 : ℚ) < 1 → split_in_segments 5 (1 / 2) = [])) :=
  ⟨by norm_num, claim_C9 5 (1 / 2) (by norm_num)⟩

/-- Claim C10: a clip producing at least one window contributes exactly one
segment, whatever the scores are (the `-inf` start is always strictly
beaten), and that segment's window is one of the clip's windows with the
window's own score. -/
theorem claim_C10 (clips : List Clip) (L : ℚ) (i : ℕ) (c : Clip)
    (hc : clips.get? i = some c) (hw : split_in_segments c.duration L ≠ []) :
    ((extract_best_segment_per_clip clips L).filter
        (fun s => s.clip_index == i)).length = 1 ∧
    ∀ s ∈ extract_best_segment_per_clip clips L, s.clip_index = i →
      (s.t_start, s.t_end) ∈ split_in_segments c.duration L ∧
      s.score = c.score s.t_start s.t_end := by
  constructor
  · have h := extractGo_count L clips 0 i c hc
    rw [if_neg hw] at h
    simpa using h
  · intro s hs hsi
    obtain ⟨_, c', hc', hsc, hwin, _⟩ := extractGo_mem L clips 0 s hs
    rw [Nat.sub_zero, hsi, hc] at hc'
    obtain rfl : c = c' := Option.some.inj hc'
    refine ⟨?_, hsc⟩
    obtain ⟨pre, suf, hse, _⟩ := hwin
    rw [hse]
    simp

/-- Claim C10 witness: a 5-unit clip whose windows all score 0 still
contributes exactly one segment. -/
theorem claim_C10_witness :
    ((extract_best_segment_per_clip [(⟨5, fun _ _ => 0⟩ : Clip)] 2).filter
        (fun s => s.clip_index == 0)).length = 1 := by
  have hceil : Nat.ceil ((5 : ℚ) / 2) = 3 := by
    rw [Nat.ceil_eq_iff (by norm_num)]
    norm_num
  have hw : split_in_segments (5 : ℚ) 2 ≠ [] := by
    rw [split_in_segments, hceil]
    norm_num [splitGo, min_def]
    simp
  exact (claim_C10 [⟨5, fun _ _ => 0⟩] 2 0 ⟨5, fun _ _ => 0⟩ rfl hw).1

/-- Claim C4 is refuted by the code: two 8-second clips with a 6-second
budget make the run succeed while the second clip's decoder handle (id 1)
is still open when `build_travel_summary_smart` returns — the loaded clips
that contribute no packed extract are never closed; and when
`write_videofile` fails, `concat_and_export` leaves the concatenated
composite (the handle it allocated, id 1 here) open, because
`final_clip.close()` runs only inside the `try` body after a successful
write. -/
theorem claim_C4 :
    build_travel_summary_smart
        [(⟨true, ".mp4"⟩, ⟨8, fun _ _ => 1⟩), (⟨true, ".mp4"⟩, ⟨8, fun _ _ => 1⟩)]
        6 6 false false false ⟨[], 0, false⟩ =
      (Except.ok (), ⟨[1], 3, true⟩) ∧
    concat_and_export [0] false false true ⟨[0], 1, false⟩ =
      (Except.error PyErr.writeFailure, ⟨[1], 2, false⟩) := by
  constructor
  · have hceil : Nat.ceil ((4 : ℚ) / 3) = 2 := by
      rw [Nat.ceil_eq_iff (by norm_num)]
      norm_num
    unfold build_travel_summary_smart
    norm_num [available_vids, FORMATS, load_and_normalize_vids, loadGo, alloc,
      extract_best_segment_per_clip, extractGo, split_in_segments, hceil, splitGo, min_def,
      bestFold, WithBot.bot_lt_coe, WithBot.coe_lt_coe, -WithBot.coe_ofNat, -WithBot.coe_zero,
      -WithBot.coe_one, arrange_best_segments, arrangeGo, concat_and_export, concatBody,
      runFinally, closeOpt, closeH]
  · rfl

end BuildSummary
